import Mathlib

/-!
Verification of the format-preserving structural edit engine and the outline
tree-view provider of the `vscode-openapi` repository.

The repository ships the outline provider source (`src/outline.ts`) together
with the contract test suites of the edit engine (`replace`, `insertJsonNode`,
`insertYamlNode`).  The engine itself lives in the external
`@xliic/openapi-ast-node` package, so it is modelled here from the design
document (sections 4.1-4.3), faithful to its words, and checked against the
in-repository test fixtures.  Documents are raw text buffers, embedded as
`List Char`; the read-only parse tree is the external pointer-resolution
service and is embedded as a resolution function from pointers to node
source-span descriptors, exactly the capability interface the design
document describes.
-/

/-- A pointer is an ordered sequence of key/index segments. -/
abbrev Pointer := List String

/-- Document format, passed as the `format` argument of `replace`/`insert`. -/
inductive DocFormat where
  | json
  | yaml
deriving DecidableEq

/-- Error taxonomy of the edit engine (design document section 7). -/
inductive EditError where
  | InvalidPointer
  | NotAContainer
  | UnsupportedStyle
  | SerializationError
deriving DecidableEq

/-- Quoting class of a scalar: none (bare) / single-quoted / double-quoted. -/
inductive QuoteStyle where
  | bare
  | single
  | double
deriving DecidableEq

/-- Modelled from the spec: the Style Inspector (section 4.1) classifies a
scalar's source span as NONE / SINGLE / DOUBLE by inspecting the first and
last character of the span. -/
def quoteStyleOf (s : List Char) : QuoteStyle :=
  if 2 ≤ s.length ∧ s.head? = some '"' ∧ s.getLast? = some '"' then
    QuoteStyle.double
  else if 2 ≤ s.length ∧ s.head? = some '\'' ∧ s.getLast? = some '\'' then
    QuoteStyle.single
  else
    QuoteStyle.bare

/-- Modelled from the spec: the Scalar Formatter (sections 4.1-4.2) renders a
new value replaying the existing quoting class of the replaced span: a
pre-quoted caller literal is emitted verbatim, otherwise the span's class is
replayed around the bare literal (the class is never re-derived from the new
value's content). -/
def renderScalar (newValue : List Char) (style : QuoteStyle) : List Char :=
  if quoteStyleOf newValue ≠ QuoteStyle.bare then
    newValue
  else
    match style with
    | QuoteStyle.double => '"' :: (newValue ++ ['"'])
    | QuoteStyle.single => '\'' :: (newValue ++ ['\''])
    | QuoteStyle.bare => newValue

/-- The source text of the half-open span `[s, e)` of a document. -/
def spanText (doc : List Char) (s e : Nat) : List Char :=
  (doc.take e).drop s

/-- Node descriptor handed back by the external parse-tree service for a
resolved pointer: the source span of the member's key token (absent for array
elements) and the source span of its value. -/
structure NodeInfo where
  keySpan : Option (Nat × Nat)
  valSpan : Nat × Nat
deriving DecidableEq

/-- The external read-only parse tree, embedded as its pointer-resolution
capability (design document sections 3 and 6). -/
structure Ast where
  resolve : Pointer → Option NodeInfo

/-- One REPLACE request: `{pointer, value, replaceKey?}`. -/
structure ReplaceRequest where
  pointer : Pointer
  value : List Char
  replaceKey : Bool := false
deriving DecidableEq

/-- A planned text edit: replace the half-open span `[start, stop)` by `text`. -/
structure Edit where
  start : Nat
  stop : Nat
  text : List Char
deriving DecidableEq, Inhabited

/-- Modelled from the spec: the Replace Planner resolves one request against
the original tree, picks the value span (or the key token span when
`replaceKey` is set), infers the span's quoting class and renders the new
value through the Scalar Formatter in that class (section 4.2). -/
def planRequest (doc : List Char) (ast : Ast) (r : ReplaceRequest) : Option Edit :=
  match ast.resolve r.pointer with
  | none => none
  | some node =>
    match (if r.replaceKey then node.keySpan else some node.valSpan) with
    | none => none
    | some (s, e) =>
      some ⟨s, e, renderScalar r.value (quoteStyleOf (spanText doc s e))⟩

/-- Modelled from the spec: plan the whole batch against the original tree;
any unresolvable pointer fails the whole batch (all-or-nothing planning,
section 4.2). -/
def planAll (doc : List Char) (ast : Ast) : List ReplaceRequest → Option (List Edit)
  | [] => some []
  | r :: rs =>
    match planRequest doc ast r, planAll doc ast rs with
    | some e, some es => some (e :: es)
    | _, _ => none

/-- Modelled from the spec: last-write-wins for identical spans — an edit is
dropped when a later request in the input order addresses the exact same
span (section 4.2). -/
def dropEarlierDuplicates : List Edit → List Edit
  | [] => []
  | e :: es =>
    if es.any (fun x => x.start == e.start && x.stop == e.stop) then
      dropEarlierDuplicates es
    else
      e :: dropEarlierDuplicates es

/-- Order on edits by descending start offset. -/
def descStart (a b : Edit) : Prop := b.start ≤ a.start

instance : DecidableRel descStart := fun a b => Nat.decLe b.start a.start

instance : IsTotal Edit descStart := ⟨fun a b => Nat.le_total b.start a.start⟩

instance : IsTrans Edit descStart := ⟨fun _ _ _ h1 h2 => Nat.le_trans h2 h1⟩

/-- Strict version of `descStart`, used to show sorted edit lists are unique. -/
def descStartStrict (a b : Edit) : Prop := b.start < a.start

instance : IsAntisymm Edit descStartStrict :=
  ⟨fun _ _ h1 h2 => absurd (Nat.lt_trans h1 h2) (Nat.lt_irrefl _)⟩

/-- Splice one edit into the buffer. -/
def applyEdit (doc : List Char) (e : Edit) : List Char :=
  doc.take e.start ++ e.text ++ doc.drop e.stop

/-- Apply a list of edits in order, left to right. -/
def applyEdits (doc : List Char) (edits : List Edit) : List Char :=
  edits.foldl applyEdit doc

/-- Modelled from the spec: `replace(documentText, format, requests)` — plan
every request against the original tree (failing the whole batch with
`InvalidPointer` if any pointer does not resolve), apply last-write-wins on
identical spans, and splice all surviving edits into the original buffer in a
single pass ordered by descending start offset (section 4.2). -/
def replace (documentText : List Char) (fmt : DocFormat) (ast : Ast)
    (requests : List ReplaceRequest) : Except EditError (List Char) :=
  match planAll documentText ast requests with
  | none => Except.error EditError.InvalidPointer
  | some edits =>
    Except.ok (applyEdits documentText
      (List.insertionSort descStart (dropEarlierDuplicates edits)))

/-! ### Helper lemmas for the Replace Planner -/

theorem planAll_eq_none_of_mem {doc : List Char} {ast : Ast}
    {r : ReplaceRequest} {reqs : List ReplaceRequest}
    (hr : r ∈ reqs) (h : planRequest doc ast r = none) :
    planAll doc ast reqs = none := by
  induction reqs with
  | nil => cases hr
  | cons a rs ih =>
    cases List.mem_cons.mp hr with
    | inl h1 =>
      subst h1
      simp only [planAll, h]
    | inr h2 =>
      simp only [planAll, ih h2]
      cases planRequest doc ast a <;> rfl

theorem quoteStyleOf_double_quoted (v : List Char) :
    quoteStyleOf ('"' :: (v ++ ['"'])) = QuoteStyle.double := by
  have h : ('"' :: (v ++ ['"'])) = ('"' :: v) ++ ['"'] := by simp
  unfold quoteStyleOf
  rw [if_pos]
  exact ⟨by simp, rfl, by rw [h, List.getLast?_concat]⟩

theorem quoteStyleOf_single_quoted (v : List Char) :
    quoteStyleOf ('\'' :: (v ++ ['\''])) = QuoteStyle.single := by
  have h : ('\'' :: (v ++ ['\''])) = ('\'' :: v) ++ ['\''] := by simp
  unfold quoteStyleOf
  rw [if_neg, if_pos]
  · exact ⟨by simp, rfl, by rw [h, List.getLast?_concat]⟩
  · rintro ⟨-, hh, -⟩
    simp at hh

theorem quoteStyleOf_renderScalar (v : List Char) (st : QuoteStyle)
    (hv : quoteStyleOf v = QuoteStyle.bare) :
    quoteStyleOf (renderScalar v st) = st := by
  unfold renderScalar
  rw [if_neg (by simp [hv])]
  cases st with
  | bare => exact hv
  | single => exact quoteStyleOf_single_quoted v
  | double => exact quoteStyleOf_double_quoted v

theorem renderScalar_self (v : List Char) :
    renderScalar v (quoteStyleOf v) = v := by
  by_cases h : quoteStyleOf v = QuoteStyle.bare
  · simp [renderScalar, h]
  · unfold renderScalar
    rw [if_pos h]

/-! ### Concrete sample documents and parse trees, taken from the
repository's replace test fixtures -/

/-- The document `foo: bar`. -/
def sampleDoc : List Char := "foo: bar".data

/-- Parse tree of `foo: bar`: key token `foo` at `[0,3)`, value `bar` at
`[5,8)`. -/
def sampleAst : Ast :=
  ⟨fun p => if p = ["foo"] then some ⟨some (0, 3), (5, 8)⟩ else none⟩

/-- The document `foo: "bar"`. -/
def sampleDocQ : List Char := "foo: \"bar\"".data

/-- Parse tree of `foo: "bar"`: key token `foo` at `[0,3)`, value `"bar"` at
`[5,10)`. -/
def sampleAstQ : Ast :=
  ⟨fun p => if p = ["foo"] then some ⟨some (0, 3), (5, 10)⟩ else none⟩

/-! ### C1, C2, C5 -/

/-- C1: if any request's pointer fails to resolve against the original parse
tree, the whole `replace` batch fails with `InvalidPointer` and no text is
produced or mutated — planning is all-or-nothing. -/
theorem replace_unresolved_pointer_fails_batch
    (doc : List Char) (fmt : DocFormat) (ast : Ast)
    (reqs : List ReplaceRequest) (r : ReplaceRequest)
    (hr : r ∈ reqs) (hres : ast.resolve r.pointer = none) :
    replace doc fmt ast reqs = Except.error EditError.InvalidPointer := by
  have h : planRequest doc ast r = none := by
    simp [planRequest, hres]
  rw [replace, planAll_eq_none_of_mem hr h]

theorem replace_unresolved_pointer_fails_batch_witness :
    (⟨["oops"], "x".data, false⟩ : ReplaceRequest) ∈
      [(⟨["oops"], "x".data, false⟩ : ReplaceRequest),
       (⟨["foo"], "baz".data, false⟩ : ReplaceRequest)] ∧
    sampleAst.resolve ["oops"] = none ∧
    replace sampleDoc DocFormat.yaml sampleAst
      [⟨["oops"], "x".data, false⟩, ⟨["foo"], "baz".data, false⟩] =
      Except.error EditError.InvalidPointer :=
  ⟨List.Mem.head _, by decide,
    replace_unresolved_pointer_fails_batch sampleDoc DocFormat.yaml sampleAst
      [⟨["oops"], "x".data, false⟩, ⟨["foo"], "baz".data, false⟩]
      ⟨["oops"], "x".data, false⟩ (List.Mem.head _) (by decide)⟩

/-- C2: for a replace request whose new value is not pre-quoted, the planned
replacement text's quoting class equals the quoting class of the original
source span — double stays double, single stays single, bare stays bare; the
class is replayed from the original span, not re-derived from the value. -/
theorem replace_preserves_quoting_class
    (doc : List Char) (ast : Ast) (r : ReplaceRequest) (node : NodeInfo)
    (s e : Nat)
    (hres : ast.resolve r.pointer = some node)
    (hkey : r.replaceKey = false)
    (hspan : node.valSpan = (s, e))
    (hbare : quoteStyleOf r.value = QuoteStyle.bare) :
    planRequest doc ast r =
      some ⟨s, e, renderScalar r.value (quoteStyleOf (spanText doc s e))⟩ ∧
    quoteStyleOf (renderScalar r.value (quoteStyleOf (spanText doc s e))) =
      quoteStyleOf (spanText doc s e) := by
  constructor
  · simp [planRequest, hres, hkey, hspan]
  · exact quoteStyleOf_renderScalar _ _ hbare

theorem replace_preserves_quoting_class_witness :
    planRequest sampleDocQ sampleAstQ ⟨["foo"], "baz".data, false⟩ =
      some ⟨5, 10, renderScalar "baz".data (quoteStyleOf (spanText sampleDocQ 5 10))⟩ ∧
    quoteStyleOf (renderScalar "baz".data (quoteStyleOf (spanText sampleDocQ 5 10))) =
      quoteStyleOf (spanText sampleDocQ 5 10) :=
  replace_preserves_quoting_class sampleDocQ sampleAstQ
    ⟨["foo"], "baz".data, false⟩ ⟨some (0, 3), (5, 10)⟩ 5 10
    (by decide) rfl rfl (by decide)

/-- C5: replacing a resolvable pointer's value by its own current literal
source text returns the document byte-identical (idempotent no-op). -/
theorem replace_noop_identity
    (doc : List Char) (fmt : DocFormat) (ast : Ast) (ptr : Pointer)
    (node : NodeInfo) (s e : Nat)
    (hres : ast.resolve ptr = some node)
    (hspan : node.valSpan = (s, e)) (hse : s ≤ e) :
    replace doc fmt ast [⟨ptr, spanText doc s e, false⟩] = Except.ok doc := by
  have h1 : renderScalar (spanText doc s e) (quoteStyleOf (spanText doc s e)) =
      spanText doc s e := renderScalar_self _
  simp only [replace, planAll, planRequest, hres, hspan, if_neg Bool.false_ne_true,
    dropEarlierDuplicates, List.any_nil, Bool.false_eq_true, if_false,
    List.insertionSort, List.orderedInsert, applyEdits, List.foldl, applyEdit, h1]
  rw [spanText]
  have h2 : doc.take s = (doc.take e).take s := by
    rw [List.take_take, Nat.min_def, if_pos hse]
  rw [h2, List.take_append_drop, List.take_append_drop]

theorem replace_noop_identity_witness :
    sampleAst.resolve ["foo"] = some ⟨some (0, 3), (5, 8)⟩ ∧
    replace sampleDoc DocFormat.yaml sampleAst
      [⟨["foo"], spanText sampleDoc 5 8, false⟩] = Except.ok sampleDoc :=
  ⟨by decide,
    replace_noop_identity sampleDoc DocFormat.yaml sampleAst ["foo"]
      ⟨some (0, 3), (5, 8)⟩ 5 8 (by decide) rfl (by decide)⟩

/-! ### Splicing helper lemmas -/

theorem replace_eq_of_planAll {doc : List Char} {fmt : DocFormat} {ast : Ast}
    {reqs : List ReplaceRequest} {edits : List Edit}
    (h : planAll doc ast reqs = some edits) :
    replace doc fmt ast reqs =
      Except.ok (applyEdits doc
        (List.insertionSort descStart (dropEarlierDuplicates edits))) := by
  unfold replace
  rw [h]

theorem take_applyEdit_of_le (doc : List Char) (e : Edit) (n : Nat)
    (hn : n ≤ e.start) (hs : e.start ≤ doc.length) :
    (applyEdit doc e).take n = doc.take n := by
  unfold applyEdit
  have hA : (doc.take e.start).length = e.start := by
    rw [List.length_take]
    omega
  have h1 : n - (doc.take e.start ++ e.text).length = 0 := by
    rw [List.length_append, hA]
    omega
  have h2 : n - (doc.take e.start).length = 0 := by
    rw [hA]
    omega
  rw [List.take_append_eq_append_take, h1, List.take_zero, List.append_nil,
    List.take_append_eq_append_take, h2, List.take_zero, List.append_nil,
    List.take_take, Nat.min_def, if_pos hn]

theorem drop_applyEdit_of_le (doc : List Char) (e : Edit) (n : Nat)
    (hn : n ≤ e.start) (hs : e.start ≤ doc.length) :
    (applyEdit doc e).drop n =
      (doc.take e.start).drop n ++ e.text ++ doc.drop e.stop := by
  unfold applyEdit
  have hA : (doc.take e.start).length = e.start := by
    rw [List.length_take]
    omega
  have h1 : n - (doc.take e.start ++ e.text).length = 0 := by
    rw [List.length_append, hA]
    omega
  have h2 : n - (doc.take e.start).length = 0 := by
    rw [hA]
    omega
  rw [List.drop_append_eq_append_drop, h1, List.drop_zero,
    List.drop_append_eq_append_drop, h2, List.drop_zero]

/-! ### C3: last-write-wins on identical spans, independence on disjoint
spans -/

/-- C3: within one batch, if two requests address the exact same source span
the later request in the input order determines the result (the batch equals
the batch containing only the later request); if the two requests address
disjoint spans — a member's value and the same member's key via `replaceKey`
— both replacements are applied in the same batch. -/
theorem replace_same_span_last_wins_and_disjoint_both_apply :
    (∀ (doc : List Char) (fmt : DocFormat) (ast : Ast)
        (r1 r2 : ReplaceRequest) (n1 n2 : NodeInfo) (s e : Nat),
      ast.resolve r1.pointer = some n1 → ast.resolve r2.pointer = some n2 →
      r1.replaceKey = false → r2.replaceKey = false →
      n1.valSpan = (s, e) → n2.valSpan = (s, e) →
      replace doc fmt ast [r1, r2] = replace doc fmt ast [r2]) ∧
    (∀ (doc : List Char) (fmt : DocFormat) (ast : Ast)
        (rv rk : ReplaceRequest) (n : NodeInfo) (ks ke vs ve : Nat),
      ast.resolve rv.pointer = some n → ast.resolve rk.pointer = some n →
      rv.replaceKey = false → rk.replaceKey = true →
      n.valSpan = (vs, ve) → n.keySpan = some (ks, ke) →
      ks < ke → ke ≤ vs → vs ≤ ve → ve ≤ doc.length →
      replace doc fmt ast [rv, rk] =
        Except.ok (doc.take ks ++
          renderScalar rk.value (quoteStyleOf (spanText doc ks ke)) ++
          (doc.take vs).drop ke ++
          renderScalar rv.value (quoteStyleOf (spanText doc vs ve)) ++
          doc.drop ve)) := by
  constructor
  · intro doc fmt ast r1 r2 n1 n2 s e h1 h2 hk1 hk2 hs1 hs2
    simp [replace, planAll, planRequest, h1, h2, hk1, hk2, hs1, hs2,
      dropEarlierDuplicates]
  · intro doc fmt ast rv rk n ks ke vs ve hv hk hkv hkk hvs hks hlt hkev hvse hlen
    have hedit : planAll doc ast [rv, rk] = some
        [⟨vs, ve, renderScalar rv.value (quoteStyleOf (spanText doc vs ve))⟩,
         ⟨ks, ke, renderScalar rk.value (quoteStyleOf (spanText doc ks ke))⟩] := by
      simp [planAll, planRequest, hv, hk, hkv, hkk, hvs, hks]
    have hne : ks ≠ vs := by omega
    have hdedupe : dropEarlierDuplicates
        [⟨vs, ve, renderScalar rv.value (quoteStyleOf (spanText doc vs ve))⟩,
         ⟨ks, ke, renderScalar rk.value (quoteStyleOf (spanText doc ks ke))⟩] =
        [⟨vs, ve, renderScalar rv.value (quoteStyleOf (spanText doc vs ve))⟩,
         ⟨ks, ke, renderScalar rk.value (quoteStyleOf (spanText doc ks ke))⟩] := by
      simp [dropEarlierDuplicates]
      intro h1 h2
      omega
    have hsort : List.insertionSort descStart
        [⟨vs, ve, renderScalar rv.value (quoteStyleOf (spanText doc vs ve))⟩,
         ⟨ks, ke, renderScalar rk.value (quoteStyleOf (spanText doc ks ke))⟩] =
        [⟨vs, ve, renderScalar rv.value (quoteStyleOf (spanText doc vs ve))⟩,
         ⟨ks, ke, renderScalar rk.value (quoteStyleOf (spanText doc ks ke))⟩] := by
      have hd : descStart
          ⟨vs, ve, renderScalar rv.value (quoteStyleOf (spanText doc vs ve))⟩
          ⟨ks, ke, renderScalar rk.value (quoteStyleOf (spanText doc ks ke))⟩ := by
        show ks ≤ vs
        omega
      simp [List.insertionSort, List.orderedInsert, hd]
    rw [replace_eq_of_planAll hedit, hdedupe, hsort]
    have hT := take_applyEdit_of_le doc
      ⟨vs, ve, renderScalar rv.value (quoteStyleOf (spanText doc vs ve))⟩ ks
      (show ks ≤ vs by omega) (show vs ≤ doc.length by omega)
    have hD := drop_applyEdit_of_le doc
      ⟨vs, ve, renderScalar rv.value (quoteStyleOf (spanText doc vs ve))⟩ ke
      (show ke ≤ vs by omega) (show vs ≤ doc.length by omega)
    have hstep : applyEdits doc
        [⟨vs, ve, renderScalar rv.value (quoteStyleOf (spanText doc vs ve))⟩,
         ⟨ks, ke, renderScalar rk.value (quoteStyleOf (spanText doc ks ke))⟩] =
        (applyEdit doc
          ⟨vs, ve, renderScalar rv.value (quoteStyleOf (spanText doc vs ve))⟩).take ks ++
        renderScalar rk.value (quoteStyleOf (spanText doc ks ke)) ++
        (applyEdit doc
          ⟨vs, ve, renderScalar rv.value (quoteStyleOf (spanText doc vs ve))⟩).drop ke := rfl
    rw [hstep, hT, hD]
    simp [List.append_assoc]

theorem replace_same_span_last_wins_and_disjoint_both_apply_witness :
    replace sampleDoc DocFormat.yaml sampleAst
      [⟨["foo"], "one".data, false⟩, ⟨["foo"], "two".data, false⟩] =
      replace sampleDoc DocFormat.yaml sampleAst [⟨["foo"], "two".data, false⟩] ∧
    replace sampleDoc DocFormat.yaml sampleAst
      [⟨["foo"], "baz".data, false⟩, ⟨["foo"], "boom".data, true⟩] =
      Except.ok (sampleDoc.take 0 ++
        renderScalar "boom".data (quoteStyleOf (spanText sampleDoc 0 3)) ++
        (sampleDoc.take 5).drop 3 ++
        renderScalar "baz".data (quoteStyleOf (spanText sampleDoc 5 8)) ++
        sampleDoc.drop 8) :=
  ⟨replace_same_span_last_wins_and_disjoint_both_apply.1 sampleDoc
      DocFormat.yaml sampleAst ⟨["foo"], "one".data, false⟩
      ⟨["foo"], "two".data, false⟩ ⟨some (0, 3), (5, 8)⟩
      ⟨some (0, 3), (5, 8)⟩ 5 8 (by decide) (by decide) rfl rfl rfl rfl,
   replace_same_span_last_wins_and_disjoint_both_apply.2 sampleDoc
      DocFormat.yaml sampleAst ⟨["foo"], "baz".data, false⟩
      ⟨["foo"], "boom".data, true⟩ ⟨some (0, 3), (5, 8)⟩ 0 3 5 8
      (by decide) (by decide) rfl rfl rfl rfl
      (by decide) (by decide) (by decide) (by decide)⟩

/-! ### C6: order independence for disjoint spans -/

/-- The edit planned for a request, defaulting when the pointer does not
resolve; used to state span disjointness of a batch. -/
def forcedEdit (doc : List Char) (ast : Ast) (r : ReplaceRequest) : Edit :=
  (planRequest doc ast r).getD default

theorem planAll_eq_map {doc : List Char} {ast : Ast}
    {reqs : List ReplaceRequest}
    (h : ∀ r ∈ reqs, (planRequest doc ast r).isSome = true) :
    planAll doc ast reqs = some (reqs.map (forcedEdit doc ast)) := by
  induction reqs with
  | nil => rfl
  | cons a rs ih =>
    have ha := h a (List.Mem.head _)
    have hs : planRequest doc ast a = some (forcedEdit doc ast a) := by
      unfold forcedEdit
      cases hpa : planRequest doc ast a with
      | none => rw [hpa] at ha; cases ha
      | some e => rfl
    have hrest := ih (fun r hr => h r (List.Mem.tail _ hr))
    simp only [planAll, hs, hrest, List.map]

theorem dropEarlierDuplicates_eq_self {edits : List Edit}
    (h : List.Pairwise (fun a b => a.start ≠ b.start) edits) :
    dropEarlierDuplicates edits = edits := by
  induction edits with
  | nil => rfl
  | cons e es ih =>
    have htail := List.Pairwise.of_cons h
    have hany : es.any (fun x => x.start == e.start && x.stop == e.stop) = false := by
      rw [List.any_eq_false]
      intro x hx
      have hne := List.rel_of_pairwise_cons h hx
      simp only [Bool.and_eq_true, beq_iff_eq, not_and]
      intro hc _
      exact hne hc.symm
    simp only [dropEarlierDuplicates, hany, Bool.false_eq_true, if_false, ih htail]

theorem insertionSort_eq_of_perm {l l' : List Edit}
    (hp : List.Perm l l')
    (hd : List.Pairwise (fun a b => a.start ≠ b.start) l) :
    List.insertionSort descStart l = List.insertionSort descStart l' := by
  have hd' : List.Pairwise (fun a b : Edit => a.start ≠ b.start) l' :=
    (hp.pairwise_iff (fun h => Ne.symm h)).mp hd
  have hone : List.Pairwise (fun a b : Edit => a.start ≠ b.start)
      (List.insertionSort descStart l) :=
    ((List.perm_insertionSort descStart l).pairwise_iff (fun h => Ne.symm h)).mpr hd
  have htwo : List.Pairwise (fun a b : Edit => a.start ≠ b.start)
      (List.insertionSort descStart l') :=
    ((List.perm_insertionSort descStart l').pairwise_iff (fun h => Ne.symm h)).mpr hd'
  apply List.eq_of_perm_of_sorted (r := descStartStrict)
  · exact (List.perm_insertionSort _ l).trans
      (hp.trans (List.perm_insertionSort _ l').symm)
  · exact List.Pairwise.imp
      (fun h => Nat.lt_of_le_of_ne h.1 (Ne.symm h.2))
      (List.Pairwise.and (List.sorted_insertionSort descStart l) hone)
  · exact List.Pairwise.imp
      (fun h => Nat.lt_of_le_of_ne h.1 (Ne.symm h.2))
      (List.Pairwise.and (List.sorted_insertionSort descStart l') htwo)

/-- C6: a batch of requests whose resolved source spans are pairwise disjoint
(and nonempty) produces the same final document text under every permutation
of the requests' input order — the collected edits are applied in a single
pass ordered by descending start offset. -/
theorem replace_disjoint_order_independent
    (doc : List Char) (fmt : DocFormat) (ast : Ast)
    (reqs reqs' : List ReplaceRequest)
    (hp : List.Perm reqs reqs')
    (hok : ∀ r ∈ reqs, (planRequest doc ast r).isSome = true)
    (hdisj : List.Pairwise (fun a b =>
      (forcedEdit doc ast a).stop ≤ (forcedEdit doc ast b).start ∨
      (forcedEdit doc ast b).stop ≤ (forcedEdit doc ast a).start) reqs)
    (hne : ∀ r ∈ reqs, (forcedEdit doc ast r).start < (forcedEdit doc ast r).stop) :
    replace doc fmt ast reqs = replace doc fmt ast reqs' := by
  have hok' : ∀ r ∈ reqs', (planRequest doc ast r).isSome = true :=
    fun r hr => hok r (hp.mem_iff.mpr hr)
  have h1 := planAll_eq_map hok
  have h2 := planAll_eq_map hok'
  have hmapperm : List.Perm (reqs.map (forcedEdit doc ast))
      (reqs'.map (forcedEdit doc ast)) := hp.map _
  have hdistinct : List.Pairwise (fun a b : Edit => a.start ≠ b.start)
      (reqs.map (forcedEdit doc ast)) := by
    rw [List.pairwise_map]
    refine List.Pairwise.imp ?_ (List.Pairwise.and_mem.mp hdisj)
    intro a b hab
    obtain ⟨ha, hb, h5⟩ := hab
    have h3 := hne _ ha
    have h4 := hne _ hb
    rcases h5 with h6 | h6 <;> omega
  have hdistinct' : List.Pairwise (fun a b : Edit => a.start ≠ b.start)
      (reqs'.map (forcedEdit doc ast)) :=
    (hmapperm.pairwise_iff (fun h => Ne.symm h)).mp hdistinct
  rw [replace_eq_of_planAll h1, replace_eq_of_planAll h2,
    dropEarlierDuplicates_eq_self hdistinct,
    dropEarlierDuplicates_eq_self hdistinct',
    insertionSort_eq_of_perm hmapperm hdistinct]

/-- The document `a: b` / `c: d` on two lines. -/
def sampleDoc2 : List Char := "a: b\nc: d".data

/-- Parse tree of `sampleDoc2`: member `a` with value span `[3,4)` and member
`c` with value span `[8,9)`. -/
def sampleAst2 : Ast :=
  ⟨fun p =>
    if p = ["a"] then some ⟨some (0, 1), (3, 4)⟩
    else if p = ["c"] then some ⟨some (5, 6), (8, 9)⟩
    else none⟩

theorem replace_disjoint_order_independent_witness :
    replace sampleDoc2 DocFormat.yaml sampleAst2
      [⟨["a"], "x".data, false⟩, ⟨["c"], "y".data, false⟩] =
    replace sampleDoc2 DocFormat.yaml sampleAst2
      [⟨["c"], "y".data, false⟩, ⟨["a"], "x".data, false⟩] :=
  replace_disjoint_order_independent sampleDoc2 DocFormat.yaml sampleAst2
    [⟨["a"], "x".data, false⟩, ⟨["c"], "y".data, false⟩]
    [⟨["c"], "y".data, false⟩, ⟨["a"], "x".data, false⟩]
    (List.Perm.swap (⟨["c"], "y".data, false⟩ : ReplaceRequest)
      (⟨["a"], "x".data, false⟩ : ReplaceRequest) [])
    (by decide) (by decide) (by decide)

/-! ### C8: frame property of an array-element replace -/

/-- C8: a single replace request targeting one element changes only that
element's source span: the result is exactly the original prefix before the
span, the rendered new text, and the original suffix after the span — all
text outside the span (brackets, other elements' quoting, spacing) is
byte-identical to the original. -/
theorem replace_array_element_frame
    (doc : List Char) (fmt : DocFormat) (ast : Ast) (r : ReplaceRequest)
    (node : NodeInfo) (s e : Nat)
    (hres : ast.resolve r.pointer = some node)
    (hkey : r.replaceKey = false)
    (hspan : node.valSpan = (s, e))
    (hse : s ≤ e) (hlen : e ≤ doc.length) :
    replace doc fmt ast [r] =
      Except.ok (doc.take s ++
        renderScalar r.value (quoteStyleOf (spanText doc s e)) ++ doc.drop e) ∧
    (doc.take s ++
        renderScalar r.value (quoteStyleOf (spanText doc s e)) ++ doc.drop e).take s =
      doc.take s ∧
    (doc.take s ++
        renderScalar r.value (quoteStyleOf (spanText doc s e)) ++ doc.drop e).drop
        (s + (renderScalar r.value (quoteStyleOf (spanText doc s e))).length) =
      doc.drop e := by
  refine ⟨?_, ?_, ?_⟩
  · have hedit : planAll doc ast [r] = some
        [⟨s, e, renderScalar r.value (quoteStyleOf (spanText doc s e))⟩] := by
      simp [planAll, planRequest, hres, hkey, hspan]
    rw [replace_eq_of_planAll hedit]
    simp [dropEarlierDuplicates, List.insertionSort, List.orderedInsert,
      applyEdits, applyEdit]
  · exact take_applyEdit_of_le doc
      ⟨s, e, renderScalar r.value (quoteStyleOf (spanText doc s e))⟩ s
      le_rfl (show s ≤ doc.length by omega)
  · have hlen1 : (doc.take s ++
        renderScalar r.value (quoteStyleOf (spanText doc s e))).length =
        s + (renderScalar r.value (quoteStyleOf (spanText doc s e))).length := by
      rw [List.length_append, List.length_take]
      omega
    rw [List.drop_append_eq_append_drop, ← hlen1, List.drop_length,
      Nat.sub_self, List.drop_zero, List.nil_append]

/-- The document `foo: ["bar", "baz"]`. -/
def sampleDocArr : List Char := "foo: [\"bar\", \"baz\"]".data

/-- Parse tree of `sampleDocArr`: array element `/foo/0` is the span `[6,11)`
holding `"bar"` (an array element has no key token). -/
def sampleAstArr : Ast :=
  ⟨fun p => if p = ["foo", "0"] then some ⟨none, (6, 11)⟩ else none⟩

theorem replace_array_element_frame_witness :
    replace sampleDocArr DocFormat.yaml sampleAstArr
      [⟨["foo", "0"], "boom".data, false⟩] =
      Except.ok (sampleDocArr.take 6 ++
        renderScalar "boom".data (quoteStyleOf (spanText sampleDocArr 6 11)) ++
        sampleDocArr.drop 11) ∧
    (sampleDocArr.take 6 ++
        renderScalar "boom".data (quoteStyleOf (spanText sampleDocArr 6 11)) ++
        sampleDocArr.drop 11).take 6 = sampleDocArr.take 6 ∧
    (sampleDocArr.take 6 ++
        renderScalar "boom".data (quoteStyleOf (spanText sampleDocArr 6 11)) ++
        sampleDocArr.drop 11).drop
        (6 + (renderScalar "boom".data (quoteStyleOf (spanText sampleDocArr 6 11))).length) =
      sampleDocArr.drop 11 :=
  replace_array_element_frame sampleDocArr DocFormat.yaml sampleAstArr
    ⟨["foo", "0"], "boom".data, false⟩ ⟨none, (6, 11)⟩ 6 11
    (by decide) rfl rfl (by decide) (by decide)

/-! ### The Insert Planner (design document section 4.3) -/

/-- Kind of a resolved node: scalar, object container, or array container. -/
inductive NodeKind where
  | scalar
  | object
  | array
deriving DecidableEq

/-- Collection layout inferred by the Style Inspector: inline bracketed
(flow) or indentation-based (block). -/
inductive Layout where
  | block
  | flow
deriving DecidableEq

/-- Target descriptor handed back by the external parse-tree service for an
insert pointer: node kind, the node's source span, the end of the container's
own key token, the source spans of its existing members in document order,
and the container's own line indentation. -/
structure Target where
  kind : NodeKind
  spanStart : Nat
  spanEnd : Nat
  keyEnd : Nat
  children : List (Nat × Nat)
  indent : List Char
deriving DecidableEq

/-- The external read-only parse tree as seen by the Insert Planner. -/
structure InsertAst where
  resolve : Pointer → Option Target

/-- Whitespace characters skipped when locating a flow insertion point. -/
def isWs (c : Char) : Bool :=
  c == ' ' || c == '\n' || c == '\t' || c == '\r'

/-- Offset of the first character of the line containing offset `i`. -/
def lineStart (doc : List Char) (i : Nat) : Nat :=
  i - ((doc.take i).reverse.takeWhile (fun c => !(c == '\n'))).length

/-- The run of leading spaces of the line containing offset `i`. -/
def indentAt (doc : List Char) (i : Nat) : List Char :=
  (doc.drop (lineStart doc i)).takeWhile (fun c => c == ' ')

/-- Walk back from offset `i`, skipping the run of trailing whitespace that
immediately precedes it. -/
def skipTrailingWsBack (doc : List Char) (i : Nat) : Nat :=
  i - ((doc.take i).reverse.takeWhile isWs).length

/-- Modelled from the spec: the Style Inspector (section 4.1) classifies a
collection as FLOW when its source span opens with `{` or `[`, BLOCK
otherwise. -/
def layoutOf (doc : List Char) (t : Target) : Layout :=
  match (doc.drop t.spanStart).head? with
  | some '{' => Layout.flow
  | some '[' => Layout.flow
  | _ => Layout.block

/-- One indentation level, per format (two spaces in the YAML fixtures, one
space in the JSON fixtures). -/
def indentUnit (fmt : DocFormat) : List Char :=
  match fmt with
  | DocFormat.json => [' ']
  | DocFormat.yaml => [' ', ' ']

/-- Result of the Insert Planner: a fragment of text, carrying its own
delimiters/indentation/newlines, and the offset at which to splice it. -/
structure InsertResult where
  fragment : List Char
  position : Nat
deriving DecidableEq

/-- Modelled from the spec: `insert(document, format, targetPointer,
fixFragmentText)` (section 4.3).  The implementation of
`insertJsonNode`/`insertYamlNode` is outside this repository; this definition
follows the design document's per-layout rules: fail with `InvalidPointer`
when the pointer does not resolve, `NotAContainer` when it resolves to a
scalar; for block containers anchor at the end of the last member's span (or
just after the container's own key when empty); for flow objects anchor just
before the closing brace skipping trailing whitespace; for flow arrays
anchor just before the closing bracket; build the fragment from a
newline/comma, the sibling (or parent-plus-one-level) indentation, a `- `
marker for block arrays, and the fix text. -/
def insertNode (doc : List Char) (fmt : DocFormat) (ast : InsertAst)
    (ptr : Pointer) (fixText : List Char) : Except EditError InsertResult :=
  match ast.resolve ptr with
  | none => Except.error EditError.InvalidPointer
  | some t =>
    match t.kind with
    | NodeKind.scalar => Except.error EditError.NotAContainer
    | NodeKind.object =>
      match layoutOf doc t with
      | Layout.block =>
        match t.children.getLast? with
        | some c =>
          Except.ok ⟨'\n' :: (indentAt doc c.1 ++ fixText), c.2⟩
        | none =>
          Except.ok ⟨'\n' :: (t.indent ++ indentUnit fmt ++ fixText), t.keyEnd⟩
      | Layout.flow =>
        let pos := skipTrailingWsBack doc (t.spanEnd - 1)
        match t.children.getLast? with
        | some c =>
          Except.ok ⟨',' :: '\n' :: (indentAt doc c.1 ++ fixText), pos⟩
        | none =>
          Except.ok ⟨',' :: '\n' :: (t.indent ++ indentUnit fmt ++ fixText), pos⟩
    | NodeKind.array =>
      match layoutOf doc t with
      | Layout.block =>
        match t.children.getLast? with
        | some c =>
          Except.ok ⟨'\n' :: (indentAt doc c.1 ++ ('-' :: ' ' :: fixText)), c.2⟩
        | none =>
          Except.ok ⟨'\n' :: (t.indent ++ ('-' :: ' ' :: fixText)), t.keyEnd⟩
      | Layout.flow =>
        let pos := t.spanEnd - 1
        match t.children.getLast? with
        | some c =>
          Except.ok ⟨',' :: '\n' :: (indentAt doc c.1 ++ fixText), pos⟩
        | none =>
          Except.ok ⟨',' :: '\n' :: (t.indent ++ indentUnit fmt ++ fixText), pos⟩

/-- Splice a fragment into the buffer at the given offset. -/
def splice (doc : List Char) (pos : Nat) (frag : List Char) : List Char :=
  doc.take pos ++ frag ++ doc.drop pos

/-- Well-formedness of a resolved container against its document: the span
and key lie inside the document, member spans are nonempty and end before
the container's closing offset, the last member's span end is maximal among
the members, and the last member ends in a non-whitespace character. -/
def wfContainer (doc : List Char) (t : Target) : Bool :=
  decide (t.spanEnd ≤ doc.length) &&
  decide (t.keyEnd ≤ doc.length) &&
  t.children.all (fun c =>
    decide (0 < c.1) && decide (c.1 < c.2) &&
    decide (c.2 ≤ (match layoutOf doc t with
                   | Layout.block => t.spanEnd
                   | Layout.flow => t.spanEnd - 1))) &&
  (match t.children.getLast? with
   | none => true
   | some c =>
     t.children.all (fun x => decide (x.2 ≤ c.2)) &&
     (doc[c.2 - 1]?.map isWs == some false))

/-! ### Helper lemmas for the Insert Planner -/

theorem length_takeWhile_le_of_false {α : Type} (p : α → Bool) :
    ∀ (l : List α) (i : Nat) (a : α), l[i]? = some a → p a = false →
      (l.takeWhile p).length ≤ i
  | [], i, a, h, _ => by simp at h
  | x :: xs, 0, a, h, hp => by
    simp only [List.getElem?_cons_zero, Option.some.injEq] at h
    subst h
    simp [List.takeWhile_cons, hp]
  | x :: xs, i + 1, a, h, hp => by
    simp only [List.getElem?_cons_succ] at h
    rw [List.takeWhile_cons]
    cases hpx : p x with
    | false => simp
    | true =>
      simp only [if_pos rfl, List.length_cons]
      exact Nat.succ_le_succ (length_takeWhile_le_of_false p xs i a h hp)

theorem skipTrailingWsBack_ge (doc : List Char) (m k : Nat)
    (hk : 0 < k) (hkm : k ≤ m) (hm : m ≤ doc.length)
    (hch : doc[k - 1]?.map isWs = some false) :
    k ≤ skipTrailingWsBack doc m := by
  obtain ⟨ch, hch1, hch2⟩ : ∃ ch, doc[k - 1]? = some ch ∧ isWs ch = false := by
    cases hd : doc[k - 1]? with
    | none => rw [hd] at hch; cases hch
    | some ch =>
      rw [hd] at hch
      exact ⟨ch, rfl, by simpa using hch⟩
  have hlen : (doc.take m).length = m := by
    rw [List.length_take]
    omega
  have hrevlen : ((doc.take m).reverse).length = m := by
    rw [List.length_reverse, hlen]
  have hidx : ((doc.take m).reverse)[m - k]? = some ch := by
    rw [List.getElem?_reverse (by omega), hlen]
    rw [List.getElem?_take]
    rw [if_pos (by omega)]
    have : m - 1 - (m - k) = k - 1 := by omega
    rw [this, hch1]
  have hb := length_takeWhile_le_of_false isWs ((doc.take m).reverse)
    (m - k) ch hidx hch2
  unfold skipTrailingWsBack
  omega

theorem take_splice (doc : List Char) (pos : Nat) (frag : List Char)
    (h : pos ≤ doc.length) :
    (splice doc pos frag).take pos = doc.take pos :=
  take_applyEdit_of_le doc ⟨pos, pos, frag⟩ pos le_rfl h

theorem drop_splice (doc : List Char) (pos : Nat) (frag : List Char)
    (h : pos ≤ doc.length) :
    (splice doc pos frag).drop (pos + frag.length) = doc.drop pos := by
  unfold splice
  have hlen1 : (doc.take pos ++ frag).length = pos + frag.length := by
    rw [List.length_append, List.length_take]
    omega
  rw [List.drop_append_eq_append_drop, ← hlen1, List.drop_length,
    Nat.sub_self, List.drop_zero, List.nil_append]

theorem insertNode_position_after_members
    (doc : List Char) (fmt : DocFormat) (ast : InsertAst) (ptr : Pointer)
    (fixText : List Char) (t : Target)
    (hres : ast.resolve ptr = some t)
    (hkind : t.kind ≠ NodeKind.scalar)
    (hwf : wfContainer doc t = true) :
    ∃ res, insertNode doc fmt ast ptr fixText = Except.ok res ∧
      (∀ c ∈ t.children, c.2 ≤ res.position) ∧
      res.position ≤ doc.length := by
  have hwf' := hwf
  unfold wfContainer at hwf'
  rw [Bool.and_eq_true, Bool.and_eq_true, Bool.and_eq_true] at hwf'
  obtain ⟨⟨⟨hsp, hke⟩, hall⟩, hlast⟩ := hwf'
  rw [decide_eq_true_iff] at hsp
  rw [decide_eq_true_iff] at hke
  rw [List.all_eq_true] at hall
  have hallc : ∀ c ∈ t.children, 0 < c.1 ∧ c.1 < c.2 ∧
      c.2 ≤ (match layoutOf doc t with
             | Layout.block => t.spanEnd
             | Layout.flow => t.spanEnd - 1) := by
    intro c hcmem
    have hc := hall c hcmem
    rw [Bool.and_eq_true, Bool.and_eq_true] at hc
    obtain ⟨⟨ha1, ha2⟩, ha3⟩ := hc
    rw [decide_eq_true_iff] at ha1 ha2 ha3
    exact ⟨ha1, ha2, ha3⟩
  cases hc : t.children.getLast? with
  | none =>
    have hnil : t.children = [] := List.getLast?_eq_none_iff.mp hc
    cases hk : t.kind with
    | scalar => exact absurd hk hkind
    | object =>
      cases hl : layoutOf doc t with
      | block =>
        refine ⟨⟨'\n' :: (t.indent ++ indentUnit fmt ++ fixText), t.keyEnd⟩, ?_, ?_, ?_⟩
        · simp only [insertNode, hres, hk, hl, hc]
        · intro x hx
          rw [hnil] at hx
          cases hx
        · exact hke
      | flow =>
        refine ⟨⟨',' :: '\n' :: (t.indent ++ indentUnit fmt ++ fixText),
            skipTrailingWsBack doc (t.spanEnd - 1)⟩, ?_, ?_, ?_⟩
        · simp only [insertNode, hres, hk, hl, hc]
        · intro x hx
          rw [hnil] at hx
          cases hx
        · show skipTrailingWsBack doc (t.spanEnd - 1) ≤ doc.length
          unfold skipTrailingWsBack
          omega
    | array =>
      cases hl : layoutOf doc t with
      | block =>
        refine ⟨⟨'\n' :: (t.indent ++ ('-' :: ' ' :: fixText)), t.keyEnd⟩, ?_, ?_, ?_⟩
        · simp only [insertNode, hres, hk, hl, hc]
        · intro x hx
          rw [hnil] at hx
          cases hx
        · exact hke
      | flow =>
        refine ⟨⟨',' :: '\n' :: (t.indent ++ indentUnit fmt ++ fixText),
            t.spanEnd - 1⟩, ?_, ?_, ?_⟩
        · simp only [insertNode, hres, hk, hl, hc]
        · intro x hx
          rw [hnil] at hx
          cases hx
        · show t.spanEnd - 1 ≤ doc.length
          omega
  | some c =>
    rw [hc] at hlast
    rw [Bool.and_eq_true] at hlast
    obtain ⟨hmax, hws⟩ := hlast
    rw [List.all_eq_true] at hmax
    have hmax' : ∀ x ∈ t.children, x.2 ≤ c.2 := by
      intro x hx
      have := hmax x hx
      rwa [decide_eq_true_iff] at this
    have hws' : doc[c.2 - 1]?.map isWs = some false := by
      rwa [beq_iff_eq] at hws
    have hcm : c ∈ t.children := List.mem_of_mem_getLast? hc
    cases hk : t.kind with
    | scalar => exact absurd hk hkind
    | object =>
      cases hl : layoutOf doc t with
      | block =>
        have hb := hallc c hcm
        rw [hl] at hb
        dsimp only at hb
        refine ⟨⟨'\n' :: (indentAt doc c.1 ++ fixText), c.2⟩, ?_, hmax', ?_⟩
        · simp only [insertNode, hres, hk, hl, hc]
        · show c.2 ≤ doc.length
          omega
      | flow =>
        have hb := hallc c hcm
        rw [hl] at hb
        dsimp only at hb
        have hge := skipTrailingWsBack_ge doc (t.spanEnd - 1) c.2
          (Nat.lt_trans hb.1 hb.2.1) hb.2.2
          (Nat.le_trans (Nat.sub_le _ _) hsp) hws'
        refine ⟨⟨',' :: '\n' :: (indentAt doc c.1 ++ fixText),
            skipTrailingWsBack doc (t.spanEnd - 1)⟩, ?_, ?_, ?_⟩
        · simp only [insertNode, hres, hk, hl, hc]
        · intro x hx
          exact Nat.le_trans (hmax' x hx) hge
        · show skipTrailingWsBack doc (t.spanEnd - 1) ≤ doc.length
          unfold skipTrailingWsBack
          omega
    | array =>
      cases hl : layoutOf doc t with
      | block =>
        have hb := hallc c hcm
        rw [hl] at hb
        dsimp only at hb
        refine ⟨⟨'\n' :: (indentAt doc c.1 ++ ('-' :: ' ' :: fixText)), c.2⟩, ?_, hmax', ?_⟩
        · simp only [insertNode, hres, hk, hl, hc]
        · show c.2 ≤ doc.length
          omega
      | flow =>
        have hb := hallc c hcm
        rw [hl] at hb
        dsimp only at hb
        refine ⟨⟨',' :: '\n' :: (indentAt doc c.1 ++ fixText), t.spanEnd - 1⟩, ?_, ?_, ?_⟩
        · simp only [insertNode, hres, hk, hl, hc]
        · intro x hx
          exact Nat.le_trans (hmax' x hx) hb.2.2
        · show t.spanEnd - 1 ≤ doc.length
          exact Nat.le_trans (Nat.sub_le _ _) hsp

/-! ### C4 and C7 -/

/-- The YAML document `a:\n  a1: foo\nc:\n  - 1\n` from the insert test
fixtures. -/
def insertSampleDoc : List Char := "a:\n  a1: foo\nc:\n  - 1\n".data

/-- Parse tree of `insertSampleDoc` as seen by the Insert Planner: `/c` is a
block array spanning `[18,21)` with the single element `1` at `[20,21)` and
key token ending at 14; `/a` is a block object spanning `[5,12)` with the
single member `a1: foo` at `[5,12)`; `/c/0` is the scalar element itself. -/
def insertSampleAst : InsertAst :=
  ⟨fun p =>
    if p = ["c"] then some ⟨NodeKind.array, 18, 21, 14, [(20, 21)], []⟩
    else if p = ["a"] then some ⟨NodeKind.object, 5, 12, 1, [(5, 12)], []⟩
    else if p = ["c", "0"] then some ⟨NodeKind.scalar, 20, 21, 14, [], []⟩
    else none⟩

/-- C4: INSERT appends the new entry as the last member of the container —
the insertion position is at or after the end of every existing member's
span, and splicing the fragment leaves the document prefix holding all
existing members (and the suffix after the position) byte-identical; on the
fixture document, inserting `a2: baz` at `/c` yields exactly
`a:\n  a1: foo\nc:\n  - 1\n  - a2: baz\n`. -/
theorem insertNode_appends_as_last_member :
    (insertNode insertSampleDoc DocFormat.yaml insertSampleAst ["c"]
        "a2: baz".data = Except.ok ⟨"\n  - a2: baz".data, 21⟩ ∧
      splice insertSampleDoc 21 "\n  - a2: baz".data =
        "a:\n  a1: foo\nc:\n  - 1\n  - a2: baz\n".data) ∧
    (∀ (doc : List Char) (fmt : DocFormat) (ast : InsertAst) (ptr : Pointer)
        (fixText : List Char) (t : Target),
      ast.resolve ptr = some t → t.kind ≠ NodeKind.scalar →
      wfContainer doc t = true →
      ∃ res, insertNode doc fmt ast ptr fixText = Except.ok res ∧
        (∀ c ∈ t.children, c.2 ≤ res.position) ∧
        res.position ≤ doc.length ∧
        (splice doc res.position res.fragment).take res.position =
          doc.take res.position ∧
        (splice doc res.position res.fragment).drop
            (res.position + res.fragment.length) =
          doc.drop res.position) := by
  constructor
  · exact ⟨rfl, rfl⟩
  · intro doc fmt ast ptr fixText t hres hkind hwf
    obtain ⟨res, h1, h2, h3⟩ :=
      insertNode_position_after_members doc fmt ast ptr fixText t hres hkind hwf
    exact ⟨res, h1, h2, h3, take_splice doc res.position res.fragment h3,
      drop_splice doc res.position res.fragment h3⟩

theorem insertNode_appends_as_last_member_witness :
    insertSampleAst.resolve ["c"] =
      some ⟨NodeKind.array, 18, 21, 14, [(20, 21)], []⟩ ∧
    wfContainer insertSampleDoc ⟨NodeKind.array, 18, 21, 14, [(20, 21)], []⟩ = true ∧
    ∃ res, insertNode insertSampleDoc DocFormat.yaml insertSampleAst ["c"]
        "a2: baz".data = Except.ok res ∧
      (∀ c ∈ [((20 : Nat), (21 : Nat))], c.2 ≤ res.position) ∧
      res.position ≤ insertSampleDoc.length ∧
      (splice insertSampleDoc res.position res.fragment).take res.position =
        insertSampleDoc.take res.position ∧
      (splice insertSampleDoc res.position res.fragment).drop
          (res.position + res.fragment.length) =
        insertSampleDoc.drop res.position :=
  ⟨by decide, by decide,
    insertNode_appends_as_last_member.2 insertSampleDoc DocFormat.yaml
      insertSampleAst ["c"] "a2: baz".data
      ⟨NodeKind.array, 18, 21, 14, [(20, 21)], []⟩
      (by decide) (by decide) (by decide)⟩

/-- C7: `insert` fails with `InvalidPointer` when the target pointer does not
resolve, fails with `NotAContainer` when it resolves to a scalar node, and in
either case returns an error value rather than a (fragment, position) result;
the two error values are distinguishable. -/
theorem insertNode_error_taxonomy :
    (∀ (doc : List Char) (fmt : DocFormat) (ast : InsertAst) (ptr : Pointer)
        (fixText : List Char),
      ast.resolve ptr = none →
      insertNode doc fmt ast ptr fixText =
        Except.error EditError.InvalidPointer) ∧
    (∀ (doc : List Char) (fmt : DocFormat) (ast : InsertAst) (ptr : Pointer)
        (fixText : List Char) (t : Target),
      ast.resolve ptr = some t → t.kind = NodeKind.scalar →
      insertNode doc fmt ast ptr fixText =
        Except.error EditError.NotAContainer) ∧
    EditError.InvalidPointer ≠ EditError.NotAContainer := by
  refine ⟨?_, ?_, by decide⟩
  · intro doc fmt ast ptr fixText h
    simp only [insertNode, h]
  · intro doc fmt ast ptr fixText t h hk
    simp only [insertNode, h, hk]

theorem insertNode_error_taxonomy_witness :
    insertNode insertSampleDoc DocFormat.yaml insertSampleAst ["nope"]
      "x".data = Except.error EditError.InvalidPointer ∧
    insertNode insertSampleDoc DocFormat.yaml insertSampleAst ["c", "0"]
      "x".data = Except.error EditError.NotAContainer :=
  ⟨insertNode_error_taxonomy.1 insertSampleDoc DocFormat.yaml insertSampleAst
      ["nope"] "x".data (by decide),
   insertNode_error_taxonomy.2.1 insertSampleDoc DocFormat.yaml insertSampleAst
      ["c", "0"] "x".data ⟨NodeKind.scalar, 20, 21, 14, [], []⟩
      (by decide) rfl⟩

/-! ### The outline tree-view provider (`src/outline.ts`) -/

/-- A node of the parsed-document AST as consumed by `OutlineProvider`:
the accessors `getKey`, `getValue`, `getDepth`, `getChildren` of the external
`Node` interface. -/
inductive ONode where
  | mk (key : String) (value : String) (depth : Nat) (children : List ONode)

/-- `node.getKey()`. -/
def ONode.getKey : ONode → String
  | ONode.mk k _ _ _ => k

/-- `node.getDepth()`. -/
def ONode.getDepth : ONode → Nat
  | ONode.mk _ _ d _ => d

/-- `node.getChildren()`. -/
def ONode.getChildren : ONode → List ONode
  | ONode.mk _ _ _ cs => cs

/-- State of an `OutlineProvider` (src/outline.ts lines 14-123): the cached
root node (null until a document is parsed), the `maxDepth` bound, the
`sortOutlines` configuration flag, and the per-section overrides
`filterChildren` (identity in the base class) and `getLabel` (`getKey` in
the base class). -/
structure OutlineProvider where
  root : Option ONode
  maxDepth : Nat := 1
  sort : Bool
  filterChildren : ONode → List ONode → List ONode := fun _ cs => cs
  getLabel : ONode → String := ONode.getKey

/-- Label comparison used by `sortChildren`: `localeCompare` is modelled as
the lexicographic order on the label strings. -/
def labelLe (p : OutlineProvider) (a b : ONode) : Prop :=
  p.getLabel a ≤ p.getLabel b

instance (p : OutlineProvider) : DecidableRel (labelLe p) :=
  fun a b => inferInstanceAs (Decidable (p.getLabel a ≤ p.getLabel b))

instance (p : OutlineProvider) : IsTotal ONode (labelLe p) :=
  ⟨fun a b => le_total (p.getLabel a) (p.getLabel b)⟩

instance (p : OutlineProvider) : IsTrans ONode (labelLe p) :=
  ⟨fun _ _ _ h1 h2 => le_trans h1 h2⟩

/-- `OutlineProvider.sortChildren` (src/outline.ts lines 74-83): when the
`sortOutlines` flag is set, sort the children by `localeCompare` of their
labels; otherwise return them unchanged. -/
def OutlineProvider.sortChildren (p : OutlineProvider)
    (children : List ONode) : List ONode :=
  if p.sort then List.insertionSort (labelLe p) children
  else children

/-- `OutlineProvider.getChildren` (src/outline.ts lines 54-68): empty when
the root is unset; default the queried node to the root; empty when the
node's depth exceeds `maxDepth`; otherwise the node's children after
filtering and optional sorting. -/
def OutlineProvider.getChildren (p : OutlineProvider)
    (nodeArg : Option ONode) : List ONode :=
  match p.root with
  | none => []
  | some root =>
    let node := nodeArg.getD root
    if p.maxDepth < node.getDepth then []
    else p.sortChildren (p.filterChildren node node.getChildren)

/-! ### C9 and C10 -/

/-- C9: `getChildren` returns the empty list (not an error) when the root is
unset or the queried node's depth exceeds `maxDepth`; otherwise it returns
the node's children after filtering and optional sorting, defaulting the
queried node to the root when none is passed. -/
theorem getChildren_root_depth_behavior :
    (∀ (p : OutlineProvider) (nodeArg : Option ONode),
      p.root = none → p.getChildren nodeArg = []) ∧
    (∀ (p : OutlineProvider) (root : ONode) (nodeArg : Option ONode),
      p.root = some root → p.maxDepth < (nodeArg.getD root).getDepth →
      p.getChildren nodeArg = []) ∧
    (∀ (p : OutlineProvider) (root : ONode) (nodeArg : Option ONode),
      p.root = some root → ¬p.maxDepth < (nodeArg.getD root).getDepth →
      p.getChildren nodeArg =
        p.sortChildren (p.filterChildren (nodeArg.getD root)
          (nodeArg.getD root).getChildren)) ∧
    (∀ (p : OutlineProvider) (root : ONode),
      p.root = some root → ¬p.maxDepth < root.getDepth →
      p.getChildren none =
        p.sortChildren (p.filterChildren root root.getChildren)) := by
  refine ⟨?_, ?_, ?_, ?_⟩
  · intro p nodeArg h
    simp [OutlineProvider.getChildren, h]
  · intro p root nodeArg h hd
    simp [OutlineProvider.getChildren, h, if_pos hd]
  · intro p root nodeArg h hd
    simp [OutlineProvider.getChildren, h, if_neg hd]
  · intro p root h hd
    simp [OutlineProvider.getChildren, h, Option.getD, if_neg hd]

/-- C10: `sortChildren` returns exactly the given children (same multiset,
original order) when the `sortOutlines` flag is false, and a permutation of
them ordered by the label order when the flag is true — no child is added or
dropped by sorting. -/
theorem sortChildren_multiset_and_order :
    (∀ (p : OutlineProvider) (children : List ONode),
      p.sort = false → p.sortChildren children = children) ∧
    (∀ (p : OutlineProvider) (children : List ONode),
      p.sort = true →
      List.Perm (p.sortChildren children) children ∧
      List.Sorted (labelLe p) (p.sortChildren children)) := by
  constructor
  · intro p children h
    simp [OutlineProvider.sortChildren, h]
  · intro p children h
    unfold OutlineProvider.sortChildren
    rw [if_pos h]
    exact ⟨List.perm_insertionSort _ _, List.sorted_insertionSort _ _⟩

/-- Outline node with key `b` at depth 1. -/
def outlineNodeB : ONode := ONode.mk "b" "" 1 []

/-- Outline node with key `a` at depth 1. -/
def outlineNodeA : ONode := ONode.mk "a" "" 1 []

/-- Root outline node with two children, keys `b` then `a`. -/
def outlineRoot : ONode := ONode.mk "root" "" 0 [outlineNodeB, outlineNodeA]

/-- Provider before any document is parsed: root unset. -/
def providerNoRoot : OutlineProvider :=
  ⟨none, 1, false, fun _ cs => cs, ONode.getKey⟩

/-- Provider with root set and sorting off. -/
def providerPlain : OutlineProvider :=
  ⟨some outlineRoot, 1, false, fun _ cs => cs, ONode.getKey⟩

/-- Provider with root set and sorting on. -/
def providerSorted : OutlineProvider :=
  ⟨some outlineRoot, 1, true, fun _ cs => cs, ONode.getKey⟩

theorem getChildren_root_depth_behavior_witness :
    providerNoRoot.getChildren none = [] ∧
    providerPlain.getChildren (some (ONode.mk "deep" "" 2 [])) = [] ∧
    providerPlain.getChildren none =
      providerPlain.sortChildren (providerPlain.filterChildren outlineRoot
        outlineRoot.getChildren) :=
  ⟨getChildren_root_depth_behavior.1 providerNoRoot none rfl,
   getChildren_root_depth_behavior.2.1 providerPlain outlineRoot
     (some (ONode.mk "deep" "" 2 [])) rfl (by decide),
   getChildren_root_depth_behavior.2.2.2 providerPlain outlineRoot rfl
     (by decide)⟩

theorem sortChildren_multiset_and_order_witness :
    providerPlain.sortChildren [outlineNodeB, outlineNodeA] =
      [outlineNodeB, outlineNodeA] ∧
    List.Perm (providerSorted.sortChildren [outlineNodeB, outlineNodeA])
      [outlineNodeB, outlineNodeA] ∧
    List.Sorted (labelLe providerSorted)
      (providerSorted.sortChildren [outlineNodeB, outlineNodeA]) :=
  ⟨sortChildren_multiset_and_order.1 providerPlain
      [outlineNodeB, outlineNodeA] rfl,
   (sortChildren_multiset_and_order.2 providerSorted
      [outlineNodeB, outlineNodeA] rfl).1,
   (sortChildren_multiset_and_order.2 providerSorted
      [outlineNodeB, outlineNodeA] rfl).2⟩
